import Mathlib

/-
Verification of `src/dailycodingproblem_com/p169_sort_linked_list.py`.

The source sorts a singly linked list of cons cells (`Cons(value, tail)`) with a
bottom-up merge sort.  By the module invariant a linked list is either `None` or
a cell whose `tail` chain reaches `None` after finitely many links, so a list is
embedded as the Lean `List` of the values along the chain (`None` ↦ `[]`,
`Cons v t` ↦ `v :: t`).  All the relinking the source performs happens strictly
after the links being rewritten have already been read (the generator in `merge`
reads a yielded cell's `tail` before the consuming loop overwrites it, and each
loop in `sort_linked_list` computes `sublist_b.end` before calling `merge`), so
the net effect of every operation on the chain of values is the pure function
given below.

Python's dynamically typed `<` on values is a parameter `lt : α → α → Bool`.
-/

namespace P169

variable {α : Type}

/-- The source compares values with Python's `<`; for a totally ordered value
type this is the decidable strict order of a `LinearOrder`. -/
def pylt [LinearOrder α] (a b : α) : Bool := decide (a < b)

/-- The non-strict order induced by the boolean strict comparison `lt`:
`x` may precede `y` exactly when `lt y x` is `false`. -/
def leB (lt : α → α → Bool) (x y : α) : Prop := lt y x = false

/-- `Sublist` (lines 72-76): identifies the cells from `start` up to but not
including `end` (called `end'` here since `end` is a Lean keyword).  In the
embedding both fields are the chains hanging off the corresponding cells; for a
well-formed descriptor `end'` is a suffix of `start`. -/
structure Sublist (α : Type) where
  start : List α
  end' : List α

/-- The run described by a `Sublist`: the cells from `start` up to but not
including `end'`.  A well-formed descriptor's `end'` is a suffix of `start`, so
the run consists of the first `start.length - end'.length` cells. -/
def runOf (s : Sublist α) : List α := s.start.take (s.start.length - s.end'.length)

/-- `merge_sequence` (lines 84-92): yields the cells of the two runs in sorted
order.  The loop runs while either run is non-exhausted; it takes run A's front
cell when B is exhausted, or when A is non-exhausted and
`cell_a.value < cell_b.value`; otherwise it takes run B's front cell (so on a
tie with both runs non-exhausted, B's cell is emitted first). -/
def merge_sequence (lt : α → α → Bool) : List α → List α → List α
  | [], [] => []
  | a :: as, [] => a :: merge_sequence lt as []
  | [], b :: bs => b :: merge_sequence lt [] bs
  | a :: as, b :: bs =>
      if lt a b then a :: merge_sequence lt as (b :: bs)
      else b :: merge_sequence lt (a :: as) bs
termination_by a b => a.length + b.length
decreasing_by
  all_goals simp only [List.length_cons]
  all_goals omega

/-- `merge` (lines 78-103): strings the cells yielded by `merge_sequence` into a
chain, rewriting each emitted cell's `tail` to the next emitted cell and setting
the last emitted cell's `tail` to `None` (line 102).  The source returns the
`(first, last)` cells of that chain; in the embedding the chain itself is
returned, carrying the same information: the first cell is its head, the last
cell its final element, and `None`-termination is `List`-intrinsic. -/
def merge (lt : α → α → Bool) (sublist_a sublist_b : Sublist α) : List α :=
  merge_sequence lt (runOf sublist_a) (runOf sublist_b)

/-- The loop of `take` (lines 108-110): `while n and llist:` advances the cursor
one link per iteration, so it stops after `min n (length)` links — exactly
`List.drop` (never advancing past `None`). -/
def take_advance : Nat → List α → List α
  | 0, llist => llist
  | _ + 1, [] => []
  | n + 1, _ :: tail => take_advance n tail

/-- `take` (lines 105-112): returns a `Sublist` whose `start` is the input cell
and whose `end` is the cursor after the advancing loop. -/
def take (llist : List α) (n : Nat) : Sublist α := ⟨llist, take_advance n llist⟩

/-- `llist_len` (lines 114-120): counts the cells reachable before `None`. -/
def llist_len : List α → Nat
  | [] => 0
  | _ :: tail => llist_len tail + 1

/-- The inner loop of `sort_linked_list` (lines 136-145): while cells remain,
take two consecutive runs of `merge_len` cells, merge them, and append the
merged run to the accumulated output (the source links the previous merged
run's last cell to the new run's first cell, i.e. list concatenation).  The
recursive call continues from `sublist_b.end`; for `merge_len ≥ 1` that cell is
`rest.drop (merge_len + merge_len - 1)`, which is the form used here so that the
recursion is total (the source's loop would not terminate with `merge_len = 0`,
a value the driver never produces). -/
def merge_pass (lt : α → α → Bool) (merge_len : Nat) : List α → List α
  | [] => []
  | c :: rest =>
      let sublist_a := take (c :: rest) merge_len
      let sublist_b := take sublist_a.end' merge_len
      merge lt sublist_a sublist_b ++
        merge_pass lt merge_len (rest.drop (merge_len + merge_len - 1))
termination_by l => l.length
decreasing_by
  simp
  omega

/-- The outer loop of `sort_linked_list` (lines 132-146): `merge_len` starts at
1 and doubles each pass while `merge_len < n`, so on pass `i` it equals `2 ^ i`
(the source's own comment: sublists of size `2^(i-1)` on iteration `i`). -/
def sort_passes (lt : α → α → Bool) (n : Nat) (i : Nat) (llist : List α) : List α :=
  if 2 ^ i < n then sort_passes lt n (i + 1) (merge_pass lt (2 ^ i) llist)
  else llist
termination_by n - i
decreasing_by
  have h2 := Nat.lt_two_pow i
  omega

/-- `sort_linked_list` (lines 122-147): lists of length below 2 are returned
unchanged; otherwise run the merge passes starting from runs of length 1. -/
def sort_linked_list (lt : α → α → Bool) (llist : List α) : List α :=
  let n := llist_len llist
  if n < 2 then llist
  else sort_passes lt n 0 llist

/-- `to_linked_list` (lines 155-161): builds one cell per value, linking the
cells in sequence order. -/
def to_linked_list : List α → List α
  | [] => []
  | v :: rest => v :: to_linked_list rest

/-- `from_linked_list` (lines 163-169): traverses the chain from the head,
appending each cell's value in order. -/
def from_linked_list : List α → List α
  | [] => []
  | c :: tail => c :: from_linked_list tail

/-- Python `<` on `(value, tag)` pairs that compare by value alone — the spec's
"secondary tag" instrumentation for observing how equal values move. -/
def tagLt (p q : Nat × Nat) : Bool := decide (p.1 < q.1)

/-! ### Basic equations for the helpers -/

theorem take_advance_eq_drop : ∀ (n : Nat) (l : List α), take_advance n l = l.drop n
  | 0, _ => rfl
  | _ + 1, [] => rfl
  | n + 1, _ :: tail => take_advance_eq_drop n tail

theorem take_start (l : List α) (n : Nat) : (take l n).start = l := rfl

theorem take_end' (l : List α) (n : Nat) : (take l n).end' = l.drop n := by
  simp [take, take_advance_eq_drop]

theorem llist_len_eq_length : ∀ (l : List α), llist_len l = l.length
  | [] => rfl
  | _ :: t => by simp [llist_len, llist_len_eq_length t]

theorem to_linked_list_eq : ∀ (l : List α), to_linked_list l = l
  | [] => rfl
  | _ :: t => by simp [to_linked_list, to_linked_list_eq t]

theorem from_linked_list_eq : ∀ (l : List α), from_linked_list l = l
  | [] => rfl
  | _ :: t => by simp [from_linked_list, from_linked_list_eq t]

theorem take_min (l : List α) (n : Nat) : l.take (min n l.length) = l.take n := by
  rcases Nat.le_total n l.length with h | h
  · rw [Nat.min_eq_left h]
  · rw [Nat.min_eq_right h, List.take_of_length_le (le_refl _), List.take_of_length_le h]

theorem runOf_take (l : List α) (n : Nat) : runOf (take l n) = l.take n := by
  have h : (take l n).end' = l.drop n := take_end' l n
  simp only [runOf, take_start, h, List.length_drop]
  rw [show l.length - (l.length - n) = min n l.length from by omega, take_min]

/-! ### merge_sequence: basic shape, permutation, sortedness -/

theorem merge_sequence_nil_right (lt : α → α → Bool) :
    ∀ (a : List α), merge_sequence lt a [] = a
  | [] => by simp [merge_sequence]
  | x :: xs => by simp [merge_sequence, merge_sequence_nil_right lt xs]

theorem merge_sequence_nil_left (lt : α → α → Bool) :
    ∀ (b : List α), merge_sequence lt [] b = b
  | [] => by simp [merge_sequence]
  | x :: xs => by simp [merge_sequence, merge_sequence_nil_left lt xs]

theorem merge_sequence_perm (lt : α → α → Bool) :
    ∀ (a b : List α), List.Perm (merge_sequence lt a b) (a ++ b)
  | [], b => by rw [merge_sequence_nil_left]; exact List.Perm.refl b
  | a :: as, [] => by
      rw [merge_sequence_nil_right]
      simp
  | a :: as, b :: bs => by
      cases h : lt a b with
      | true =>
          have ih := merge_sequence_perm lt as (b :: bs)
          simpa [merge_sequence, h] using ih.cons a
      | false =>
          have ih := merge_sequence_perm lt (a :: as) bs
          simp only [merge_sequence, h, Bool.false_eq_true, if_false]
          exact (ih.cons b).trans List.perm_middle.symm
termination_by a b => a.length + b.length
decreasing_by
  all_goals simp only [List.length_cons]
  all_goals omega

theorem merge_sequence_length (lt : α → α → Bool) (a b : List α) :
    (merge_sequence lt a b).length = a.length + b.length := by
  have h := (merge_sequence_perm lt a b).length_eq
  simpa using h

theorem merge_sequence_head? (lt : α → α → Bool) :
    ∀ (a b : List α) (x : α), (merge_sequence lt a b).head? = some x →
      a.head? = some x ∨ b.head? = some x
  | [], [], x, hx => by simp [merge_sequence] at hx
  | a :: as, [], x, hx => by
      left
      rw [merge_sequence_nil_right] at hx
      exact hx
  | [], b :: bs, x, hx => by
      right
      rw [merge_sequence_nil_left] at hx
      exact hx
  | a :: as, b :: bs, x, hx => by
      cases h : lt a b with
      | true => left; simp [merge_sequence, h] at hx; simp [hx]
      | false => right; simp [merge_sequence, h] at hx; simp [hx]

theorem merge_sequence_chain' (lt : α → α → Bool)
    (hasym : ∀ x y, lt x y = true → lt y x = false) :
    ∀ (a b : List α), List.Chain' (leB lt) a → List.Chain' (leB lt) b →
      List.Chain' (leB lt) (merge_sequence lt a b)
  | [], b, _, hb => by rw [merge_sequence_nil_left]; exact hb
  | a :: as, [], ha, _ => by rw [merge_sequence_nil_right]; exact ha
  | a :: as, b :: bs, ha, hb => by
      rcases List.chain'_cons'.1 ha with ⟨hah, hat⟩
      rcases List.chain'_cons'.1 hb with ⟨hbh, hbt⟩
      cases h : lt a b with
      | true =>
          rw [show merge_sequence lt (a :: as) (b :: bs) =
              a :: merge_sequence lt as (b :: bs) from by simp [merge_sequence, h]]
          refine List.chain'_cons'.2 ⟨?_, merge_sequence_chain' lt hasym as (b :: bs) hat hb⟩
          intro y hy
          rcases merge_sequence_head? lt as (b :: bs) y hy with h1 | h1
          · exact hah y h1
          · simp only [List.head?_cons, Option.some_inj] at h1
            subst h1
            exact hasym a b h
      | false =>
          rw [show merge_sequence lt (a :: as) (b :: bs) =
              b :: merge_sequence lt (a :: as) bs from by simp [merge_sequence, h]]
          refine List.chain'_cons'.2 ⟨?_, merge_sequence_chain' lt hasym (a :: as) bs ha hbt⟩
          intro y hy
          rcases merge_sequence_head? lt (a :: as) bs y hy with h1 | h1
          · simp only [List.head?_cons, Option.some_inj] at h1
            subst h1
            exact h
          · exact hbh y h1
termination_by a b => a.length + b.length
decreasing_by
  all_goals simp only [List.length_cons]
  all_goals omega

/-! ### merge_pass: one full pass of the driver's inner loop -/

/-- The `m`-th run of length `k` into which a pass slices the list: the cells at
positions `k*m, …, k*m + k - 1`. -/
def chunk (k m : Nat) (l : List α) : List α := (l.drop (k * m)).take k

theorem merge_pass_nil (lt : α → α → Bool) (merge_len : Nat) :
    merge_pass lt merge_len ([] : List α) = [] := by simp [merge_pass]

theorem merge_pass_cons (lt : α → α → Bool) {merge_len : Nat} (hml : 0 < merge_len)
    (c : α) (rest : List α) :
    merge_pass lt merge_len (c :: rest) =
      merge_sequence lt ((c :: rest).take merge_len)
          (((c :: rest).drop merge_len).take merge_len) ++
        merge_pass lt merge_len (((c :: rest).drop merge_len).drop merge_len) := by
  have hdrop : (c :: rest).drop (merge_len + merge_len) =
      rest.drop (merge_len + merge_len - 1) := by
    conv_lhs => rw [show merge_len + merge_len = (merge_len + merge_len - 1) + 1 from by omega]
    rw [List.drop_succ_cons]
  rw [merge_pass, merge, runOf_take, take_end', runOf_take, List.drop_drop, hdrop]

theorem merge_pass_perm (lt : α → α → Bool) {merge_len : Nat} (hml : 0 < merge_len) :
    ∀ (l : List α), List.Perm (merge_pass lt merge_len l) l
  | [] => by rw [merge_pass_nil]
  | c :: rest => by
      rw [merge_pass_cons lt hml]
      have ih := merge_pass_perm lt hml (((c :: rest).drop merge_len).drop merge_len)
      have h1 := merge_sequence_perm lt ((c :: rest).take merge_len)
        (((c :: rest).drop merge_len).take merge_len)
      refine (h1.append ih).trans ?_
      rw [List.append_assoc, List.take_append_drop, List.take_append_drop]
termination_by l => l.length
decreasing_by
  simp only [List.length_drop, List.length_cons]
  omega

theorem merge_pass_length (lt : α → α → Bool) {merge_len : Nat} (hml : 0 < merge_len)
    (l : List α) : (merge_pass lt merge_len l).length = l.length :=
  (merge_pass_perm lt hml l).length_eq

/-- One pass over a list whose runs of length `merge_len` are each sorted
produces a list whose runs of length `2 * merge_len` are each sorted. -/
theorem merge_pass_chunks (lt : α → α → Bool)
    (hasym : ∀ x y, lt x y = true → lt y x = false) {merge_len : Nat}
    (hml : 0 < merge_len) :
    ∀ (l : List α), (∀ m, List.Chain' (leB lt) (chunk merge_len m l)) →
      ∀ m, List.Chain' (leB lt) (chunk (merge_len + merge_len) m (merge_pass lt merge_len l))
  | [], _, m => by
      rw [merge_pass_nil]
      simp [chunk]
  | c :: rest, hs, m => by
      rw [merge_pass_cons lt hml]
      have hA : List.Chain' (leB lt) ((c :: rest).take merge_len) := by
        have h0 := hs 0
        simpa [chunk] using h0
      have hB : List.Chain' (leB lt) (((c :: rest).drop merge_len).take merge_len) := by
        have h1 := hs 1
        simpa [chunk] using h1
      have hM : List.Chain' (leB lt)
          (merge_sequence lt ((c :: rest).take merge_len)
            (((c :: rest).drop merge_len).take merge_len)) :=
        merge_sequence_chain' lt hasym _ _ hA hB
      have hMlen : (merge_sequence lt ((c :: rest).take merge_len)
          (((c :: rest).drop merge_len).take merge_len)).length =
          min merge_len (c :: rest).length +
            min merge_len ((c :: rest).length - merge_len) := by
        rw [merge_sequence_length]
        simp [List.length_take, List.length_drop]
      rcases Nat.lt_or_ge (c :: rest).length (merge_len + merge_len) with hk2 | hk2
      · -- short tail: the second-stage list is empty, the whole output is the merged run
        have hrec0 : ((c :: rest).drop merge_len).drop merge_len = [] := by
          rw [List.drop_drop, List.drop_eq_nil_of_le (by omega)]
        rw [hrec0, merge_pass_nil, List.append_nil]
        cases m with
        | zero =>
            simp only [chunk, Nat.mul_zero, List.drop_zero]
            rwa [List.take_of_length_le (by omega)]
        | succ m' =>
            have hle : merge_len + merge_len ≤ (merge_len + merge_len) * (m' + 1) :=
              Nat.le_mul_of_pos_right _ (Nat.succ_pos m')
            simp only [chunk]
            rw [List.drop_eq_nil_of_le (by omega)]
            simp
      · -- full first pair: the merged run is exactly the first 2*merge_len output cells
        have hMlen' : (merge_sequence lt ((c :: rest).take merge_len)
            (((c :: rest).drop merge_len).take merge_len)).length =
            merge_len + merge_len := by
          rw [hMlen]
          omega
        cases m with
        | zero =>
            simp only [chunk, Nat.mul_zero, List.drop_zero]
            rw [List.take_append_of_le_length (by omega), List.take_of_length_le (by omega)]
            exact hM
        | succ m' =>
            have harith : (merge_len + merge_len) * (m' + 1) =
                (merge_sequence lt ((c :: rest).take merge_len)
                  (((c :: rest).drop merge_len).take merge_len)).length +
                  (merge_len + merge_len) * m' := by
              rw [hMlen']
              ring
            simp only [chunk]
            rw [harith, List.drop_append]
            have hrec := merge_pass_chunks lt hasym hml
              (((c :: rest).drop merge_len).drop merge_len) ?_ m'
            · exact hrec
            · intro m2
              have h2 := hs (m2 + 2)
              simp only [chunk] at h2 ⊢
              rw [List.drop_drop, List.drop_drop,
                show merge_len + (merge_len + merge_len * m2) = merge_len * (m2 + 2) from by ring]
              exact h2
termination_by l => l.length
decreasing_by
  simp only [List.length_drop, List.length_cons]
  omega

/-! ### sort_passes and sort_linked_list -/

theorem sort_passes_perm (lt : α → α → Bool) (n i : Nat) (l : List α) :
    List.Perm (sort_passes lt n i l) l := by
  rw [sort_passes]
  split
  · have hml : 0 < 2 ^ i := pow_pos (by omega) i
    exact (sort_passes_perm lt n (i + 1) (merge_pass lt (2 ^ i) l)).trans
      (merge_pass_perm lt hml l)
  · exact List.Perm.refl l
termination_by n - i
decreasing_by
  have h2 := Nat.lt_two_pow i
  omega

theorem sort_passes_chain (lt : α → α → Bool)
    (hasym : ∀ x y, lt x y = true → lt y x = false) (n i : Nat) (l : List α)
    (hlen : l.length = n) (hs : ∀ m, List.Chain' (leB lt) (chunk (2 ^ i) m l)) :
    List.Chain' (leB lt) (sort_passes lt n i l) := by
  rw [sort_passes]
  split
  · have hml : 0 < 2 ^ i := pow_pos (by omega) i
    refine sort_passes_chain lt hasym n (i + 1) (merge_pass lt (2 ^ i) l) ?_ ?_
    · rw [merge_pass_length lt hml, hlen]
    · intro m
      have h := merge_pass_chunks lt hasym hml l hs m
      rwa [show (2:Nat) ^ (i + 1) = 2 ^ i + 2 ^ i from by rw [pow_succ]; ring]
  · rename_i h
    have h0 := hs 0
    simp only [chunk, Nat.mul_zero, List.drop_zero] at h0
    rwa [List.take_of_length_le (by omega)] at h0
termination_by n - i
decreasing_by
  have h2 := Nat.lt_two_pow i
  omega

theorem sort_linked_list_perm (lt : α → α → Bool) (l : List α) :
    List.Perm (sort_linked_list lt l) l := by
  unfold sort_linked_list
  dsimp only
  split
  · exact List.Perm.refl l
  · exact sort_passes_perm lt (llist_len l) 0 l

/-- Lengths below 2 make any chain trivially sorted. -/
theorem chain'_of_length_lt_two {R : α → α → Prop} (l : List α) (h : l.length < 2) :
    List.Chain' R l := by
  match l with
  | [] => exact List.chain'_nil
  | [a] => exact List.chain'_singleton a
  | a :: b :: t => simp only [List.length_cons] at h; omega

theorem chain'_chunk_one (lt : α → α → Bool) (l : List α) (m : Nat) :
    List.Chain' (leB lt) (chunk 1 m l) := by
  apply chain'_of_length_lt_two
  simp only [chunk, List.length_take, List.length_drop]
  omega

theorem sort_linked_list_chain (lt : α → α → Bool)
    (hasym : ∀ x y, lt x y = true → lt y x = false) (l : List α) :
    List.Chain' (leB lt) (sort_linked_list lt l) := by
  unfold sort_linked_list
  dsimp only
  split
  · rename_i h
    rw [llist_len_eq_length] at h
    exact chain'_of_length_lt_two l h
  · refine sort_passes_chain lt hasym (llist_len l) 0 l (llist_len_eq_length l).symm ?_
    intro m
    simpa using chain'_chunk_one lt l m

theorem sort_linked_list_length (lt : α → α → Bool) (l : List α) :
    (sort_linked_list lt l).length = l.length :=
  (sort_linked_list_perm lt l).length_eq

/-! ### A fueled variant of the pass loop, witnessing its termination

`sort_passes` is a total Lean function, but to make the termination of the
source's `while merge_len < n` loop observable we also give the loop with
explicit fuel (one unit per iteration, `none` when the fuel runs out) and show
that `n` units of fuel always suffice. -/

def sort_passes_fuel (lt : α → α → Bool) (n i : Nat) :
    Nat → List α → Option (List α)
  | 0, _ => none
  | fuel + 1, llist =>
      if 2 ^ i < n then sort_passes_fuel lt n (i + 1) fuel (merge_pass lt (2 ^ i) llist)
      else some llist

def sort_linked_list_fuel (lt : α → α → Bool) (fuel : Nat) (llist : List α) :
    Option (List α) :=
  let n := llist_len llist
  if n < 2 then some llist
  else sort_passes_fuel lt n 0 fuel llist

theorem sort_passes_fuel_eq (lt : α → α → Bool) (n : Nat) :
    ∀ (fuel i : Nat) (l : List α), n ≤ 2 ^ (i + fuel) →
      sort_passes_fuel lt n i (fuel + 1) l = some (sort_passes lt n i l)
  | 0, i, l, h => by
      simp only [Nat.add_zero] at h
      rw [sort_passes_fuel, sort_passes]
      rw [if_neg (by omega), if_neg (by omega)]
  | fuel + 1, i, l, h => by
      rw [sort_passes_fuel, sort_passes]
      by_cases hc : 2 ^ i < n
      · rw [if_pos hc, if_pos hc]
        exact sort_passes_fuel_eq lt n fuel (i + 1) (merge_pass lt (2 ^ i) l)
          (by rw [show i + 1 + fuel = i + (fuel + 1) from by omega]; exact h)
      · rw [if_neg hc, if_neg hc]

/-! ### Heap-level model of the read-only observers

`take` and `llist_len` only read the cell arena: their loops rebind local
variables (`n`, `llist`) but never assign to any cell's `value` or `tail`
field.  To make that checkable, the two loops are also embedded over an
explicit arena of cells addressed by index (`none` being the absence marker),
with every step returning the arena it leaves behind; a dangling index (which
would raise in Python) aborts the result but still returns the arena. -/

structure Cell (α : Type) where
  value : α
  tail : Option Nat

/-- The arena of cons cells; a pointer is an `Option Nat` index into it. -/
abbrev Heap (α : Type) := List (Cell α)

/-- The loop of `take` over the arena: `while n and llist:` — one link per
iteration, at most `n` iterations.  Returns the final cursor (or `none` in the
first component's `none` case when a dangling index is dereferenced) together
with the arena as the loop leaves it. -/
def take_loop_heap (h : Heap α) : Nat → Option Nat → Option (Option Nat) × Heap α
  | 0, p => (some p, h)
  | _ + 1, none => (some none, h)
  | n + 1, some i =>
      match h.get? i with
      | none => (none, h)
      | some c => take_loop_heap h n c.tail

/-- `take` over the arena: the descriptor keeps the input cell as `start` and
the loop's final cursor as `end`. -/
def take_heap (h : Heap α) (p : Option Nat) (n : Nat) :
    Option (Option Nat × Option Nat) × Heap α :=
  match take_loop_heap h n p with
  | (none, h') => (none, h')
  | (some e, h') => (some (p, e), h')

/-- `llist_len` over the arena: counts links until the absence marker, with
fuel bounding the loop (the source's loop does not terminate on a cyclic
arena); returns the arena as the loop leaves it. -/
def llist_len_heap (h : Heap α) : Nat → Option Nat → Nat → Option Nat × Heap α
  | _, none, acc => (some acc, h)
  | 0, some _, _ => (none, h)
  | fuel + 1, some i, acc =>
      match h.get? i with
      | none => (none, h)
      | some c => llist_len_heap h fuel c.tail (acc + 1)

theorem take_loop_heap_frame (h : Heap α) :
    ∀ (n : Nat) (p : Option Nat), (take_loop_heap h n p).2 = h
  | 0, p => by simp [take_loop_heap]
  | _ + 1, none => by simp [take_loop_heap]
  | n + 1, some i => by
      rw [take_loop_heap]
      match hc : h.get? i with
      | none => simp [hc]
      | some c => simp [hc, take_loop_heap_frame h n c.tail]

theorem llist_len_heap_frame (h : Heap α) :
    ∀ (fuel : Nat) (p : Option Nat) (acc : Nat), (llist_len_heap h fuel p acc).2 = h
  | fuel, none, acc => by simp [llist_len_heap]
  | 0, some _, _ => by simp [llist_len_heap]
  | fuel + 1, some i, acc => by
      rw [llist_len_heap]
      match hc : h.get? i with
      | none => simp [hc]
      | some c => simp [hc, llist_len_heap_frame h fuel c.tail (acc + 1)]

theorem take_heap_frame (h : Heap α) (p : Option Nat) (n : Nat) :
    (take_heap h p n).2 = h := by
  rw [take_heap]
  have hf := take_loop_heap_frame h n p
  match hl : take_loop_heap h n p with
  | (none, h') => rw [hl] at hf; exact hf
  | (some e, h') => rw [hl] at hf; exact hf

/-! ### Bridging `pylt` with the order relations used in the statements -/

theorem pylt_asym {β : Type} [LinearOrder β] :
    ∀ x y : β, pylt x y = true → pylt y x = false := by
  intro x y hxy
  simp only [pylt, decide_eq_true_eq] at hxy
  simp only [pylt, decide_eq_false_iff_not]
  exact lt_asymm hxy

theorem chain_le_of_chain_leB {β : Type} [LinearOrder β] {l : List β}
    (h : List.Chain' (leB pylt) l) : List.Chain' (· ≤ ·) l := by
  refine h.imp ?_
  intro x y hxy
  simp only [leB, pylt, decide_eq_false_iff_not] at hxy
  exact le_of_not_lt hxy

theorem chain_leB_of_chain_le {β : Type} [LinearOrder β] {l : List β}
    (h : List.Chain' (· ≤ ·) l) : List.Chain' (leB pylt) l := by
  refine h.imp ?_
  intro x y hxy
  simp only [leB, pylt, decide_eq_false_iff_not]
  exact not_lt.2 hxy

/-! ### The claims -/

/-- Claim C1: for every finite sequence `S` of totally ordered values,
`from_linked_list (sort_linked_list (to_linked_list S))` is a permutation of
`S` (the multiset of values is unchanged) and every adjacent pair `a, b` of the
result satisfies `a ≤ b`. -/
theorem sort_linked_list_correct {β : Type} [LinearOrder β] (S : List β) :
    List.Perm (from_linked_list (sort_linked_list pylt (to_linked_list S))) S ∧
    List.Chain' (· ≤ ·) (from_linked_list (sort_linked_list pylt (to_linked_list S))) := by
  rw [to_linked_list_eq, from_linked_list_eq]
  exact ⟨sort_linked_list_perm pylt S,
    chain_le_of_chain_leB (sort_linked_list_chain pylt pylt_asym S)⟩

/-- Sorting the tagged list `[2, 2, 1]` (tags record original positions; the
comparison `tagLt` looks only at the value) puts the tagged `2`s in reversed
order: the output is `[(1,2), (2,1), (2,0)]`. -/
theorem sort_tagged_221 :
    sort_linked_list tagLt [(2,0), (2,1), (1,2)] = [(1,2), (2,1), (2,0)] := by
  simp [sort_linked_list, llist_len, sort_passes, merge_pass, merge, take, runOf,
    take_advance, merge_sequence, tagLt]

/-- Claim C2 counterexample: `sort_linked_list` is not stable.  In the input
`[2, 2, 1]`, tagged by original position and compared by value alone, the two
equal `2`s sit at positions 0 and 1, yet in the output the element originally
at position 0 does not come before the element originally at position 1. -/
theorem sort_not_stable :
    ¬ ((sort_linked_list tagLt [(2,0), (2,1), (1,2)]).indexOf (2,0)
        < (sort_linked_list tagLt [(2,0), (2,1), (1,2)]).indexOf (2,1)) := by
  rw [sort_tagged_221]
  decide

/-- Claim C2 (amended): sorting `[2, 2, 1]` yields the values `[1, 2, 2]`, but
the two equal-valued elements appear in reversed relative order (the merge
tie-break emits run B's cell first on equal values), so `sort_linked_list` is
not stable. -/
theorem sort_antistable_221 :
    sort_linked_list tagLt [(2,0), (2,1), (1,2)] = [(1,2), (2,1), (2,0)] ∧
    (sort_linked_list tagLt [(2,0), (2,1), (1,2)]).map Prod.fst = [1, 2, 2] := by
  rw [sort_tagged_221]
  exact ⟨rfl, rfl⟩

/-- Claim C3: when the front cells of runs A and B hold equal values and
neither run is exhausted, B's cell is emitted before A's; A's cell is emitted
first only when its value is strictly smaller (third conjunct) or when B is
exhausted (fourth conjunct); the second conjunct gives the full "otherwise take
B" branch, of which the equal-values case is an instance. -/
theorem merge_sequence_tie_break {β : Type} [LinearOrder β] (a b : β) (as bs : List β) :
    (a = b → merge_sequence pylt (a :: as) (b :: bs) = b :: merge_sequence pylt (a :: as) bs) ∧
    (¬ a < b → merge_sequence pylt (a :: as) (b :: bs) = b :: merge_sequence pylt (a :: as) bs) ∧
    (a < b → merge_sequence pylt (a :: as) (b :: bs) = a :: merge_sequence pylt as (b :: bs)) ∧
    merge_sequence pylt (a :: as) [] = a :: merge_sequence pylt as [] := by
  refine ⟨?_, ?_, ?_, ?_⟩
  · intro h
    subst h
    simp [merge_sequence, pylt]
  · intro h
    simp [merge_sequence, pylt, h]
  · intro h
    simp [merge_sequence, pylt, h]
  · simp [merge_sequence]

theorem merge_sequence_tie_break_witness :
    merge_sequence pylt ((2:Int) :: [5]) (2 :: [7]) = 2 :: merge_sequence pylt (2 :: [5]) [7] :=
  (merge_sequence_tie_break 2 2 [5] [7]).1 rfl

/-- Claim C4: for runs A and B each sorted in non-decreasing order, `merge`
returns a single sorted run whose values are exactly the multiset union of the
two runs' values (a permutation of their concatenation); if both runs are empty
the result is empty, i.e. its first and last cells are both the absence marker.
(The last emitted cell's link being the absence marker is intrinsic to the list
embedding: `merge` returns a `None`-terminated chain.) -/
theorem merge_spec {β : Type} [LinearOrder β] (sublist_a sublist_b : Sublist β)
    (hA : List.Chain' (· ≤ ·) (runOf sublist_a))
    (hB : List.Chain' (· ≤ ·) (runOf sublist_b)) :
    List.Perm (merge pylt sublist_a sublist_b) (runOf sublist_a ++ runOf sublist_b) ∧
    List.Chain' (· ≤ ·) (merge pylt sublist_a sublist_b) ∧
    (runOf sublist_a = [] → runOf sublist_b = [] →
      (merge pylt sublist_a sublist_b).head? = none ∧
      (merge pylt sublist_a sublist_b).getLast? = none) := by
  refine ⟨merge_sequence_perm pylt (runOf sublist_a) (runOf sublist_b), ?_, ?_⟩
  · exact chain_le_of_chain_leB (merge_sequence_chain' pylt pylt_asym _ _
      (chain_leB_of_chain_le hA) (chain_leB_of_chain_le hB))
  · intro ha hb
    rw [merge, ha, hb]
    simp [merge_sequence]

theorem merge_spec_witness :
    List.Perm (merge pylt (Sublist.mk [(1:Int), 3, 9, 9] [9, 9]) (Sublist.mk [2, 3] []))
        (runOf (Sublist.mk [(1:Int), 3, 9, 9] [9, 9]) ++ runOf (Sublist.mk [2, 3] [])) ∧
    List.Chain' (· ≤ ·)
      (merge pylt (Sublist.mk [(1:Int), 3, 9, 9] [9, 9]) (Sublist.mk [2, 3] [])) ∧
    (runOf (Sublist.mk [(1:Int), 3, 9, 9] [9, 9]) = [] →
      runOf (Sublist.mk ([2, 3] : List Int) []) = [] →
      (merge pylt (Sublist.mk [(1:Int), 3, 9, 9] [9, 9]) (Sublist.mk [2, 3] [])).head? = none ∧
      (merge pylt (Sublist.mk [(1:Int), 3, 9, 9] [9, 9])
        (Sublist.mk [2, 3] [])).getLast? = none) :=
  merge_spec (Sublist.mk [(1:Int), 3, 9, 9] [9, 9]) (Sublist.mk [2, 3] [])
    (by norm_num [runOf, List.chain'_cons]) (by norm_num [runOf, List.chain'_cons])

/-- Claim C5: `take` returns a `Sublist` whose `start` is the input cell and
whose `end` is the cell reached after advancing exactly `min k (length)` links
from it — it never advances past the absence marker. -/
theorem take_spec (l : List α) (k : Nat) :
    (take l k).start = l ∧ (take l k).end' = l.drop (min k l.length) := by
  refine ⟨rfl, ?_⟩
  rw [take_end']
  rcases Nat.le_total k l.length with h | h
  · rw [Nat.min_eq_left h]
  · rw [Nat.min_eq_right h, List.drop_eq_nil_of_le h, List.drop_eq_nil_of_le (le_refl _)]

/-- Claim C6: for every list of length below 2, `sort_linked_list` returns the
list unchanged (the `n < 2` guard returns before any merge pass runs). -/
theorem sort_short_unchanged (lt : α → α → Bool) (l : List α) (h : l.length < 2) :
    sort_linked_list lt l = l := by
  unfold sort_linked_list
  dsimp only
  rw [if_pos (by rw [llist_len_eq_length]; omega)]

theorem sort_short_unchanged_witness :
    sort_linked_list (pylt : Int → Int → Bool) [7] = [7] :=
  sort_short_unchanged pylt [7] (by decide)

/-- Claim C7: on every finite (acyclic, `None`-terminated) input — in the
embedding, every `List` — the sort terminates: running the pass loop with
explicit fuel, `length + 1` iterations always suffice and produce the value of
the total function `sort_linked_list`. -/
theorem sort_linked_list_terminates (lt : α → α → Bool) (l : List α) :
    sort_linked_list_fuel lt (l.length + 1) l = some (sort_linked_list lt l) := by
  unfold sort_linked_list_fuel sort_linked_list
  dsimp only
  by_cases h : llist_len l < 2
  · rw [if_pos h, if_pos h]
  · rw [if_neg h, if_neg h]
    apply sort_passes_fuel_eq
    simp only [Nat.zero_add]
    rw [llist_len_eq_length]
    have h2 := Nat.lt_two_pow l.length
    omega

/-- Claim C8: when one of the two runs passed to `merge` is empty (`start` is
already `end`, so the run holds no cells), `merge` returns the other run's
cells unchanged, in their original relative order, with the same first and
last cells. -/
theorem merge_empty_run (lt : α → α → Bool) (sublist_a sublist_b : Sublist α) :
    (runOf sublist_a = [] → merge lt sublist_a sublist_b = runOf sublist_b) ∧
    (runOf sublist_b = [] → merge lt sublist_a sublist_b = runOf sublist_a) := by
  constructor
  · intro h
    rw [merge, h, merge_sequence_nil_left]
  · intro h
    rw [merge, h, merge_sequence_nil_right]

theorem merge_empty_run_witness :
    merge (pylt : Int → Int → Bool) (Sublist.mk [5, 7] [5, 7]) (Sublist.mk [1, 2] []) =
      runOf (Sublist.mk ([1, 2] : List Int) []) :=
  (merge_empty_run pylt (Sublist.mk [5, 7] [5, 7]) (Sublist.mk [1, 2] [])).1 rfl

/-- Claim C9: the sort preserves the finite-chain shape: the output — a `List`,
hence an acyclic `None`-terminated chain by construction — has exactly as many
links before the absence marker (as measured by the source's own `llist_len`)
as the input has cells. -/
theorem sort_preserves_chain_length (lt : α → α → Bool) (l : List α) :
    llist_len (sort_linked_list lt l) = llist_len l := by
  rw [llist_len_eq_length, llist_len_eq_length]
  exact (sort_linked_list_perm lt l).length_eq

/-- Claim C10: `take` and `llist_len` are read-only: embedded over an explicit
cell arena, both loops return the arena exactly as they found it — no cell's
`value` or `tail` is modified, for every arena, cursor, count and fuel. -/
theorem take_llist_len_readonly (h : Heap α) (p : Option Nat) (n fuel acc : Nat) :
    (take_heap h p n).2 = h ∧ (llist_len_heap h fuel p acc).2 = h :=
  ⟨take_heap_frame h p n, llist_len_heap_frame h fuel p acc⟩

end P169
